import Mathlib

/-!
Shallow embedding of `src/matcher.py` (invoice-to-payments reconciliation core)
and proofs about its matching, deduplication and remainder logic.

Modelling conventions, fixed once for the whole file:

* Python strings are modelled as `List Char` (`Str`).  The case mapping of
  `str.lower` and the whitespace set of `str.strip` are modelled on the ASCII
  range, which covers every character the program manipulates.
* `pandas` cell values that may be missing (`NaN` after `read_csv` /
  `to_numeric(errors="coerce")` / `to_datetime(errors="coerce")`) are modelled
  as `Option`: `none` is the null.  Every comparison of the source that
  involves a null yields `False` in Python (`NaN == x`, `NaN < x`,
  `abs(NaN - x) < t`, `NaT` date arithmetic giving `nan` days), and the
  corresponding helpers below return `false` on `none`.
* Monetary amounts are modelled as exact rationals `ℚ` (the source holds IEEE
  doubles produced by `to_numeric`; the claims under study never depend on
  binary rounding, and the concrete inputs used below are exactly
  representable as doubles).  Dates are modelled as epoch day numbers `Int`:
  `to_datetime` of a date-only string is midnight, so the `.days` field of a
  timestamp difference is exactly the difference of day numbers.
* `inv["invoice_id"]` and `pay["payment_id"]` are required identifying fields
  (spec section 7: a record lacking them is rejected by the loader before the
  core runs), so they are modelled as plain `Str`.
-/

/- The rational operations of the library are `@[irreducible]`, which blocks
elaborator-level evaluation in `decide`; the kernel itself unfolds them
regardless.  Restore the default reducibility so concrete runs of the model
can be checked by `decide`. -/
set_option allowUnsafeReducibility true
attribute [semireducible] Rat.add Rat.sub Rat.mul Rat.inv

namespace InvoiceMatcher

/-- Python strings are modelled as lists of characters. -/
abbrev Str := List Char

/-- Coerce a Lean string literal to the `Str` model. -/
def strL (s : String) : Str := s.data

/-- ASCII case mapping of Python `str.lower`: the uppercase letters map to
their lowercase forms, every other character is unchanged. -/
def pyToLower (c : Char) : Char :=
  match c with
  | 'A' => 'a' | 'B' => 'b' | 'C' => 'c' | 'D' => 'd' | 'E' => 'e' | 'F' => 'f'
  | 'G' => 'g' | 'H' => 'h' | 'I' => 'i' | 'J' => 'j' | 'K' => 'k' | 'L' => 'l'
  | 'M' => 'm' | 'N' => 'n' | 'O' => 'o' | 'P' => 'p' | 'Q' => 'q' | 'R' => 'r'
  | 'S' => 's' | 'T' => 't' | 'U' => 'u' | 'V' => 'v' | 'W' => 'w' | 'X' => 'x'
  | 'Y' => 'y' | 'Z' => 'z'
  | c => c

/-- Model of Python `str.lower()`. -/
def pyLower (s : Str) : Str := s.map pyToLower

/-- The whitespace characters stripped by Python `str.strip()` (ASCII part). -/
def pySpace (c : Char) : Bool :=
  c == ' ' || c == '\t' || c == '\n' || c == '\x0d' || c == '\x0b' || c == '\x0c'

/-- Model of Python `str.strip()`: remove leading and trailing whitespace. -/
def pyStrip (s : Str) : Str :=
  ((s.dropWhile pySpace).reverse.dropWhile pySpace).reverse

/-- Strings with no leading and no trailing whitespace; every output of the
name normalizer has this shape, which drives its idempotence. -/
def noEdgeSpace (s : Str) : Prop :=
  (∀ c, s.head? = some c → pySpace c = false) ∧
    (∀ c, s.getLast? = some c → pySpace c = false)

/-- Decide whether `pat` is a prefix of `s` (helper for `replace` and `in`). -/
def strStartsWith : Str → Str → Bool
  | [], _ => true
  | _ :: _, [] => false
  | c :: p, d :: s => c == d && strStartsWith p s

/-- Model of the Python substring test `pat in s` (for nonempty `s` scan every
suffix; the empty pattern is contained in everything). -/
def strContains : Str → Str → Bool
  | _, [] => true
  | [], _ :: _ => false
  | c :: t, pat => strStartsWith pat (c :: t) || strContains t pat

/-- Fueled worker for Python `str.replace`: scan left to right, replace each
non-overlapping occurrence of `pat` by `rep`.  The fuel only serves to make
the recursion structural (each step consumes one unit while the remaining
text shrinks), so the kernel can evaluate it; `pyReplace` supplies enough
fuel for the whole text.  The source only ever calls `replace` with nonempty
patterns, which the `pat ≠ []` guard reflects. -/
def pyReplaceAux (pat rep : Str) : Nat → Str → Str
  | _, [] => []
  | 0, s => s
  | fuel + 1, c :: rest =>
    if pat ≠ [] ∧ strStartsWith pat (c :: rest) = true then
      rep ++ pyReplaceAux pat rep fuel ((c :: rest).drop pat.length)
    else
      c :: pyReplaceAux pat rep fuel rest

/-- Model of Python `s.replace(pat, rep)` for nonempty `pat`. -/
def pyReplace (pat rep s : Str) : Str := pyReplaceAux pat rep s.length s

/-- Embedding of `baseline_normalize_name` from `src/matcher.py`: a non-string
input (None or NaN cell) yields the empty string, otherwise strip, apply the
four literal-text replacements in source order, then lowercase. -/
def baseline_normalize_name : Option Str → Str
  | none => []
  | some name =>
    pyLower
      (pyReplace (strL "Ltd.") (strL "Ltd")
        (pyReplace (strL "Limited") (strL "Ltd")
          (pyReplace (strL "Pvt. Ltd") (strL "Pvt Ltd")
            (pyReplace (strL "Private Limited") (strL "Pvt Ltd")
              (pyStrip name)))))

/-! ## Data model

Record shapes as they stand after the first lines of `match_records`
(column rename to `amount`/`date`, `to_numeric` and `to_datetime` with
`errors="coerce"`): text cells that may be NaN are `Option Str`, parsed
amounts are `Option ℚ`, parsed dates are `Option Int` (epoch days). -/

structure Invoice where
  invoice_id : Str
  customer_name : Option Str
  amount : Option ℚ
  currency : Option Str
  date : Option Int
deriving DecidableEq

structure Payment where
  payment_id : Str
  payer_name : Option Str
  memo : Option Str
  reference_number : Option Str
  amount : Option ℚ
  currency : Option Str
  date : Option Int
deriving DecidableEq

/-- One candidate or final match row (the dict appended to `matches`). -/
structure Match where
  payment_id : Str
  invoice_id : Str
  confidence : ℚ
  rationale : Str
deriving DecidableEq

/-- One row of `remaining_records`. -/
structure RemainderRecord where
  invoice_id : Str
  customer_name : Option Str
  invoice_amount : Option ℚ
  payment_id : Str
  payment_amount : Option ℚ
  remaining_amount : Option ℚ
  currency : Option Str
deriving DecidableEq

/-! ## Null (NaN) aware primitives -/

/-- Python `str()` of a possibly-NaN cell read with `dtype=str`: a missing
cell is the float NaN and renders as the text `"nan"`.  (The `.get(key, "")`
default of the source applies only when the whole column is absent from the
frame; per spec section 6 the loader delivers the canonical column set, which
is what the record model represents.) -/
def pyStrCell : Option Str → Str
  | none => strL "nan"
  | some s => s

/-- pandas `==` on two possibly-NaN text cells: any comparison with NaN is
`False`. -/
def eqNan : Option Str → Option Str → Bool
  | some a, some b => a = b
  | _, _ => false

/-- pandas `<` on two possibly-NaN numbers: `False` whenever one is NaN. -/
def ltNan : Option ℚ → Option ℚ → Bool
  | some a, some b => a < b
  | _, _ => false

/-- pandas `>` on two possibly-NaN numbers: `False` whenever one is NaN. -/
def gtNan : Option ℚ → Option ℚ → Bool
  | some a, some b => a > b
  | _, _ => false

/-- Python `abs` on a rational (kernel-computable form). -/
def ratAbs (q : ℚ) : ℚ := if q < 0 then -q else q

/-- Python `abs` on an integer (kernel-computable form). -/
def intAbs (n : Int) : Int := if n < 0 then -n else n

/-- The test `abs(a - b) < tol` on possibly-NaN numbers: `False` whenever one
is NaN. -/
def absDiffLtNan (a b : Option ℚ) (tol : ℚ) : Bool :=
  match a, b with
  | some a, some b => ratAbs (a - b) < tol
  | _, _ => false

/-- The test `abs((a - b).days) <= w` on possibly-NaT dates: a NaT operand
makes the difference NaT, whose `days` field is `nan`, and `abs(nan) <= w` is
`False`. -/
def absDaysLeNan (a b : Option Int) (w : Int) : Bool :=
  match a, b with
  | some a, some b => intAbs (a - b) ≤ w
  | _, _ => false

/-- Subtraction on possibly-NaN numbers (NaN propagates). -/
def subNan : Option ℚ → Option ℚ → Option ℚ
  | some a, some b => some (a - b)
  | _, _ => none

/-! ## The three matchers

Each matcher of the source is an all-pairs scan `for pay in payments: for
inv in invoices:` appending candidate rows; it is modelled as a per-pair
function returning `Option Match` together with the double loop. -/

/-- Search text of the direct-reference scan:
`str(pay.get("memo", "")) + " " + str(pay.get("reference_number", ""))`. -/
def searchText (pay : Payment) : Str :=
  pyStrCell pay.memo ++ strL " " ++ pyStrCell pay.reference_number

/-- Direct matcher, one pair: emit confidence 1.0 iff `str(inv["invoice_id"])`
occurs as a substring of the search text. -/
def directPair (pay : Payment) (inv : Invoice) : Option Match :=
  if strContains (searchText pay) inv.invoice_id then
    some ⟨pay.payment_id, inv.invoice_id, 1,
          strL "Direct invoice_id found in memo/reference"⟩
  else none

/-- Amount/date matcher, one pair: equal currency, date difference within 7
days, amount difference strictly below 0.01 (`1e-2`). -/
def amountDatePair (pay : Payment) (inv : Invoice) : Option Match :=
  if eqNan inv.currency pay.currency
      ∧ absDaysLeNan pay.date inv.date 7 = true
      ∧ absDiffLtNan inv.amount pay.amount (1 / 100) = true then
    some ⟨pay.payment_id, inv.invoice_id, 4 / 5,
          strL "Exact amount and near-date (±7 days)"⟩
  else none

/-- Name/amount matcher, one pair: normalized names must be equal, then the
amount relationship picks the branch; the final `else` of the source is
`continue` (no candidate). -/
def namePair (pay : Payment) (inv : Invoice) : Option Match :=
  if baseline_normalize_name pay.payer_name = baseline_normalize_name inv.customer_name then
    if absDiffLtNan pay.amount inv.amount (1 / 100) then
      some ⟨pay.payment_id, inv.invoice_id, 7 / 10,
            strL "Name-normalized and amount match"⟩
    else if ltNan pay.amount inv.amount then
      some ⟨pay.payment_id, inv.invoice_id, 1 / 2,
            strL "Partial payment - lower amount"⟩
    else if gtNan pay.amount inv.amount then
      some ⟨pay.payment_id, inv.invoice_id, 2 / 5,
            strL "Overpayment - higher amount"⟩
    else none
  else none

/-- All-pairs scan of one per-pair matcher, in source order (payments outer,
invoices inner). -/
def scanPairs (f : Payment → Invoice → Option Match)
    (invoices : List Invoice) (payments : List Payment) : List Match :=
  payments.flatMap fun pay => invoices.filterMap fun inv => f pay inv

/-- The full candidate sequence `matches` in generation order: the direct
loop, then the amount/date loop, then the name/amount loop. -/
def candidates (invoices : List Invoice) (payments : List Payment) : List Match :=
  scanPairs directPair invoices payments
    ++ scanPairs amountDatePair invoices payments
    ++ scanPairs namePair invoices payments

/-! ## Aggregation: sort by confidence descending, dedup by payment id

`matches_df.sort_values("confidence", ascending=False)` goes through pandas
`nargsort`, which for `ascending=False` reverses the values, takes an
ascending argsort, and reverses the resulting order again — so with a
STABLE underlying sort the descending order preserves generation order
among equal confidences.  The source, however, uses the default
`kind="quicksort"`: the numpy introsort coincides with the stable insertion
sort only below its cutoff of about 16 elements, and beyond that its
partitioning swaps equal elements, so the order among equal confidences is
then unspecified.  The model below uses the stable `List.insertionSort`
throughout: it is exact for candidate frames below the cutoff (all concrete
inputs of this file) and realizes the stable-kind semantics the spec
intends in general, but is NOT a faithful model of the tie order the
program produces on larger frames — see the C1 result, a code bug, where
this gap is the finding.  Every other claim proved through this definition
uses only properties invariant under the choice of permutation (sortedness,
multiset identity, dedup structure) or concrete inputs below the cutoff.
`drop_duplicates(subset=["payment_id"], keep="first")` keeps the first row
of each payment id in the sorted order. -/

/-- Comparison used by the sort: ascending confidence. -/
def confLe (a b : Match) : Prop := a.confidence ≤ b.confidence

instance : DecidableRel confLe :=
  fun a b => inferInstanceAs (Decidable (a.confidence ≤ b.confidence))

/-- Model of `sort_values("confidence", ascending=False)`: reverse, stable
ascending sort, reverse (the `nargsort` construction; see the section
comment above for where this is and is not exact for the program). -/
def sortDescByConf (l : List Match) : List Match :=
  (List.insertionSort confLe l.reverse).reverse

/-- Worker of `drop_duplicates(subset=["payment_id"], keep="first")`: keep a
row iff its payment id was not seen on an earlier row. -/
def dropDupAux (seen : List Str) : List Match → List Match
  | [] => []
  | m :: rest =>
    if m.payment_id ∈ seen then dropDupAux seen rest
    else m :: dropDupAux (m.payment_id :: seen) rest

/-- Model of `drop_duplicates(subset=["payment_id"], keep="first")`. -/
def dropDupByPayment (l : List Match) : List Match := dropDupAux [] l

/-- The final match set `matches_df` after sort and dedup.  (The source skips
both steps when `matches` is empty; on the empty list they are the identity,
so the guard is transparent.) -/
def finalMatches (invoices : List Invoice) (payments : List Payment) : List Match :=
  dropDupByPayment (sortDescByConf (candidates invoices payments))

/-! ## Unmatched sets and remainder records -/

/-- Model of `payments[~payments["payment_id"].isin(matched_payment_ids)]`. -/
def unmatchedPayments (payments : List Payment) (ms : List Match) : List Payment :=
  payments.filter fun p => decide (p.payment_id ∉ ms.map Match.payment_id)

/-- Model of `invoices[~invoices["invoice_id"].isin(matched_invoice_ids)]`. -/
def unmatchedInvoices (invoices : List Invoice) (ms : List Match) : List Invoice :=
  invoices.filter fun i => decide (i.invoice_id ∉ ms.map Match.invoice_id)

/-- The remainder loop: for each final match row, look up the first payment
and invoice with the matching ids (`.iloc[0]` on the boolean-mask selection)
and emit a record iff `pay["amount"] < inv["amount"]`.  The lookups cannot
fail for rows produced by `match_records` (every id comes from the input
lists); the `none` fallthrough, where Python would raise on `.iloc[0]`,
emits nothing. -/
def remainderRow (invoices : List Invoice) (payments : List Payment)
    (row : Match) : Option RemainderRecord :=
  match payments.find? (fun p => decide (p.payment_id = row.payment_id)),
        invoices.find? (fun i => decide (i.invoice_id = row.invoice_id)) with
  | some pay, some inv =>
    if ltNan pay.amount inv.amount then
      some ⟨inv.invoice_id, inv.customer_name, inv.amount, pay.payment_id,
            pay.amount, subNan inv.amount pay.amount, inv.currency⟩
    else none
  | _, _ => none

/-- The full remainder loop over the final match set. -/
def remainingRecords (invoices : List Invoice) (payments : List Payment)
    (ms : List Match) : List RemainderRecord :=
  ms.filterMap (remainderRow invoices payments)

/-- One modelled storage write (`DataFrame.to_csv(path)`). -/
structure FileWrite where
  path : Str
  rows : List RemainderRecord
deriving DecidableEq

/-- The three collections returned by `match_records` (the first is named
after the Python variable `matches_df`, since `matches` is reserved in
Lean). -/
structure MatchResult where
  matches_df : List Match
  unmatched_payments : List Payment
  unmatched_invoices : List Invoice
deriving DecidableEq

/-- Embedding of `match_records`: it returns the three collections
`(matches_df, unmatched_payments, unmatched_invoices)` and, as a side
effect, writes the remainder records to `out/remaining_payments.csv` when
any exist.  The write is modelled as an explicit I/O log (second component);
the two `print` calls touch no storage and are not part of the log. -/
def match_records (invoices : List Invoice) (payments : List Payment) :
    MatchResult × List FileWrite :=
  let matches_df := finalMatches invoices payments
  let u_pay := unmatchedPayments payments matches_df
  let u_inv := unmatchedInvoices invoices matches_df
  let remaining := remainingRecords invoices payments matches_df
  (⟨matches_df, u_pay, u_inv⟩,
    if remaining = [] then []
    else [⟨strL "out/remaining_payments.csv", remaining⟩])

/-! ## Derived notions used to state the properties -/

/-- Predicate picking the rows of one payment id. -/
def pidEq (pid : Str) (m : Match) : Bool := decide (m.payment_id = pid)

/-- Predicate picking the rows of one confidence value. -/
def confEq (c : ℚ) (m : Match) : Bool := decide (m.confidence = c)

/-- All candidates generated for one payment id, in generation order. -/
def candidatesFor (invoices : List Invoice) (payments : List Payment)
    (pid : Str) : List Match :=
  (candidates invoices payments).filter (pidEq pid)

/-- Maximum confidence of a candidate list (0 when empty; every real
candidate has positive confidence, so the default never masks a maximum). -/
def maxConf : List Match → ℚ
  | [] => 0
  | m :: l => max m.confidence (maxConf l)

/-- Rationale text of the direct-reference branch. -/
def rDirect : Str := strL "Direct invoice_id found in memo/reference"

/-- Rationale text of the amount/date branch. -/
def rAmountDate : Str := strL "Exact amount and near-date (±7 days)"

/-- Rationale text of the exact name/amount branch. -/
def rNameExact : Str := strL "Name-normalized and amount match"

/-- Rationale text of the partial-payment branch. -/
def rPartialPayment : Str := strL "Partial payment - lower amount"

/-- Rationale text of the overpayment branch. -/
def rOver : Str := strL "Overpayment - higher amount"

/-- The five confidence/rationale pairs the matchers can emit. -/
def confRationaleTable : List (ℚ × Str) :=
  [(1, rDirect), (4 / 5, rAmountDate), (7 / 10, rNameExact),
   (1 / 2, rPartialPayment), (2 / 5, rOver)]

/-! ## Concrete records used by the scenario theorems -/

/-- Scenario B invoice `INV-2` (spec section 8): amount 50.00, USD,
2024-02-01 (epoch day 19754), customer "Acme Private Limited". -/
def invB : Invoice :=
  ⟨strL "INV-2", some (strL "Acme Private Limited"), some 50, some (strL "USD"),
   some 19754⟩

/-- Scenario B payment `PAY-2`: payer "acme pvt ltd", amount 30.00, USD,
2024-02-20 (epoch day 19773), memo and reference cells empty (NaN). -/
def payB : Payment :=
  ⟨strL "PAY-2", some (strL "acme pvt ltd"), none, none, some 30, some (strL "USD"),
   some 19773⟩

/-- Invoice whose id is the text "nan", with every other cell missing. -/
def invNan : Invoice := ⟨strL "nan", none, none, none, none⟩

/-- Payment with every optional cell missing (memo and reference are NaN). -/
def payNan : Payment := ⟨strL "PAY-9", none, none, none, none, none, none⟩

/-- Invoice `I-7` for the within-tolerance remainder input: amount 100.00. -/
def invTol : Invoice :=
  ⟨strL "I-7", some (strL "Acme"), some 100, some (strL "USD"), some 19754⟩

/-- Payment `P-7` for the within-tolerance remainder input: same payer name,
amount 99.9921875 (exactly 100 − 1/128, an exact double), date missing so
only the name matcher fires. -/
def payTol : Payment :=
  ⟨strL "P-7", some (strL "Acme"), none, none, some (100 - 1 / 128),
   some (strL "USD"), none⟩

/-- Two invoices whose ids tie on a direct reference: "I1" is a substring of
"I11", so a memo mentioning "I11" matches both at confidence 1.0. -/
def invTie1 : Invoice := ⟨strL "I1", some (strL "CustA"), none, none, none⟩

/-- Second invoice of the tie input. -/
def invTie2 : Invoice := ⟨strL "I11", some (strL "CustB"), none, none, none⟩

/-- Payment whose memo mentions invoice "I11" (and hence also "I1"). -/
def payTie : Payment :=
  ⟨strL "P-5", none, some (strL "paid I11"), none, none, none, none⟩

theorem find?_eq_head?_filter {α : Type} (p : α → Bool) :
    ∀ l : List α, l.find? p = (l.filter p).head?
  | [] => rfl
  | a :: l => by
    cases h : p a with
    | true =>
      rw [List.find?_cons_of_pos _ h, List.filter_cons, if_pos h]
      rfl
    | false =>
      rw [List.find?_cons_of_neg _ (by simp [h]), List.filter_cons, if_neg (by simp [h])]
      exact find?_eq_head?_filter p l

theorem mem_of_getLast?_eq {α : Type} {a : α} :
    ∀ {l : List α}, l.getLast? = some a → a ∈ l
  | [], h => by simp at h
  | [x], h => by
    simp only [List.getLast?_singleton, Option.some.injEq] at h
    simp [h]
  | x :: y :: t, h => by
    rw [List.getLast?_cons_cons] at h
    exact List.mem_cons_of_mem x (mem_of_getLast?_eq h)

theorem getLast?_filter_of_getLast? {α : Type} (p : α → Bool) :
    ∀ (l : List α) (a : α), l.getLast? = some a → p a = true →
      (l.filter p).getLast? = l.getLast?
  | [], a, h, _ => by simp at h
  | [x], a, h, hp => by
    simp only [List.getLast?_singleton, Option.some.injEq] at h
    subst h
    simp [List.filter_cons, hp]
  | x :: y :: t, a, h, hp => by
    rw [List.getLast?_cons_cons] at h
    have ih := getLast?_filter_of_getLast? p (y :: t) a h hp
    rw [List.getLast?_cons_cons, List.filter_cons]
    split
    · rw [← ih]
      cases hf : List.filter p (y :: t) with
      | nil =>
        rw [hf] at ih
        simp only [List.getLast?_nil] at ih
        rw [← ih] at h
        simp at h
      | cons b u => rw [List.getLast?_cons_cons]
    · exact ih

/-! ## Lemmas about the dedup step -/

theorem dropDupAux_sublist : ∀ (l : List Match) (seen : List Str),
    List.Sublist (dropDupAux seen l) l
  | [], _ => List.Sublist.refl []
  | m :: rest, seen => by
    rw [dropDupAux]
    split
    · exact (dropDupAux_sublist rest seen).cons m
    · exact (dropDupAux_sublist rest (m.payment_id :: seen)).cons₂ m

theorem find?_dropDupAux (pid : Str) :
    ∀ (l : List Match) (seen : List Str), pid ∉ seen →
      (dropDupAux seen l).find? (pidEq pid) = l.find? (pidEq pid)
  | [], _, _ => rfl
  | m :: rest, seen, hseen => by
    rw [dropDupAux]
    split
    case isTrue hmem =>
      have hne : pidEq pid m = false := by
        simp only [pidEq, decide_eq_false_iff_not]
        intro h
        exact hseen (h ▸ hmem)
      rw [find?_dropDupAux pid rest seen hseen]
      rw [List.find?_cons_of_neg _ (by simp [hne])]
    case isFalse hmem =>
      cases hm : pidEq pid m with
      | true =>
        rw [List.find?_cons_of_pos _ hm, List.find?_cons_of_pos _ hm]
      | false =>
        have hpid : pid ∉ m.payment_id :: seen := by
          simp only [pidEq, decide_eq_false_iff_not] at hm
          simp only [List.mem_cons, not_or]
          exact ⟨fun h => hm h.symm, hseen⟩
        rw [List.find?_cons_of_neg _ (by simp [hm]),
          List.find?_cons_of_neg _ (by simp [hm])]
        exact find?_dropDupAux pid rest (m.payment_id :: seen) hpid

theorem dropDupAux_pid_not_seen :
    ∀ (l : List Match) (seen : List Str) (m : Match),
      m ∈ dropDupAux seen l → m.payment_id ∉ seen
  | [], _, _, h => by simp [dropDupAux] at h
  | x :: rest, seen, m, h => by
    rw [dropDupAux] at h
    split at h
    · exact dropDupAux_pid_not_seen rest seen m h
    case isFalse hmem =>
      rcases List.mem_cons.mp h with rfl | hmm
      · exact hmem
      · have := dropDupAux_pid_not_seen rest (x.payment_id :: seen) m hmm
        exact fun hc => this (List.mem_cons_of_mem _ hc)

theorem dropDupAux_pairwise :
    ∀ (l : List Match) (seen : List Str),
      (dropDupAux seen l).Pairwise (fun a b => a.payment_id ≠ b.payment_id)
  | [], _ => by simp [dropDupAux]
  | x :: rest, seen => by
    rw [dropDupAux]
    split
    · exact dropDupAux_pairwise rest seen
    · refine List.Pairwise.cons (fun m hm => ?_) (dropDupAux_pairwise rest _)
      have := dropDupAux_pid_not_seen rest (x.payment_id :: seen) m hm
      intro hc
      exact this (hc ▸ List.mem_cons_self _ _)

theorem mem_pid_dropDupAux (pid : Str) :
    ∀ (l : List Match) (seen : List Str), pid ∉ seen →
      (pid ∈ (dropDupAux seen l).map Match.payment_id ↔
        pid ∈ l.map Match.payment_id)
  | [], _, _ => Iff.rfl
  | m :: rest, seen, hseen => by
    rw [dropDupAux]
    split
    case isTrue hmem =>
      have hne : m.payment_id ≠ pid := fun h => hseen (h ▸ hmem)
      rw [mem_pid_dropDupAux pid rest seen hseen]
      simp only [List.map_cons, List.mem_cons]
      exact ⟨Or.inr, fun h => h.resolve_left fun hh => hne hh.symm⟩
    case isFalse hmem =>
      by_cases hp : m.payment_id = pid
      · simp [hp]
      · have hpid : pid ∉ m.payment_id :: seen := by
          simp only [List.mem_cons, not_or]
          exact ⟨fun h => hp h.symm, hseen⟩
        simp only [List.map_cons, List.mem_cons]
        rw [mem_pid_dropDupAux pid rest (m.payment_id :: seen) hpid]

/-! ## Lemmas about the sort step -/

instance : IsTotal Match confLe :=
  ⟨fun a b => le_total a.confidence b.confidence⟩

instance : IsTrans Match confLe :=
  ⟨fun _ _ _ => le_trans⟩

theorem sortDescByConf_perm (l : List Match) :
    (sortDescByConf l).Perm l := by
  unfold sortDescByConf
  exact ((List.reverse_perm _).trans (List.perm_insertionSort confLe l.reverse)).trans
    (List.reverse_perm l)

/-- Stability of `orderedInsert` with respect to one confidence value: the
subsequence of rows having exactly confidence `c` gains the inserted row at
the front when it has confidence `c`, and is untouched otherwise. -/
theorem filter_confEq_orderedInsert (c : ℚ) (m : Match) :
    ∀ l : List Match,
      (List.orderedInsert confLe m l).filter (confEq c) =
        if m.confidence = c then m :: l.filter (confEq c) else l.filter (confEq c)
  | [] => by
    simp only [List.orderedInsert, List.filter_cons, List.filter_nil, confEq]
    split <;> simp_all
  | x :: xs => by
    rw [List.orderedInsert]
    split
    case isTrue hle =>
      simp only [List.filter_cons, confEq]
      split <;> split <;> simp_all
    case isFalse hlt =>
      have hx : x.confidence < m.confidence := by
        simpa [confLe, not_le] using hlt
      rw [List.filter_cons, filter_confEq_orderedInsert c m xs]
      by_cases hm : m.confidence = c
      · have hxc : (confEq c x) = false := by
          simp only [confEq, decide_eq_false_iff_not]
          intro hc
          rw [hm] at hx
          rw [hc] at hx
          exact lt_irrefl c hx
        simp only [hxc, hm, if_true, if_false]
        simp [List.filter_cons, hxc, hm]
      · simp [List.filter_cons, hm]

/-- Stability of the full ascending sort for one confidence value. -/
theorem filter_confEq_insertionSort (c : ℚ) :
    ∀ l : List Match,
      (List.insertionSort confLe l).filter (confEq c) = l.filter (confEq c)
  | [] => rfl
  | m :: l => by
    rw [List.insertionSort, filter_confEq_orderedInsert c m (List.insertionSort confLe l),
      filter_confEq_insertionSort c l, List.filter_cons]
    by_cases hm : m.confidence = c <;> simp [confEq, hm]

/-! ## Lemmas about maxConf -/

theorem le_maxConf {m : Match} : ∀ {l : List Match}, m ∈ l → m.confidence ≤ maxConf l
  | x :: t, h => by
    rcases List.mem_cons.mp h with rfl | hm
    · exact le_max_left _ _
    · exact le_trans (le_maxConf hm) (le_max_right _ _)

theorem maxConf_le {b : ℚ} (hb : 0 ≤ b) :
    ∀ {l : List Match}, (∀ m ∈ l, m.confidence ≤ b) → maxConf l ≤ b
  | [], _ => hb
  | x :: t, h => by
    refine max_le (h x (List.mem_cons_self x t)) (maxConf_le hb fun m hm => ?_)
    exact h m (List.mem_cons_of_mem x hm)

theorem maxConf_perm {l₁ l₂ : List Match} (h : l₁.Perm l₂) :
    maxConf l₁ = maxConf l₂ := by
  induction h with
  | nil => rfl
  | cons x _ ih => simp [maxConf, ih]
  | swap x y t => simp [maxConf, max_left_comm]
  | trans _ _ ih₁ ih₂ => exact ih₁.trans ih₂

/-- In a list sorted by ascending confidence, every confidence is bounded by
the confidence of the last row. -/
theorem sorted_le_getLast :
    ∀ {l : List Match}, List.Sorted confLe l → ∀ {a : Match}, l.getLast? = some a →
      ∀ m ∈ l, m.confidence ≤ a.confidence
  | [x], _, a, hl, m, hm => by
    simp only [List.getLast?_singleton, Option.some.injEq] at hl
    rcases List.mem_singleton.mp hm with rfl
    exact hl ▸ le_refl _
  | x :: y :: t, hs, a, hl, m, hm => by
    rw [List.getLast?_cons_cons] at hl
    have htail := sorted_le_getLast (List.sorted_cons.mp hs).2 hl
    rcases List.mem_cons.mp hm with rfl | hm
    · have hma : a ∈ y :: t := mem_of_getLast?_eq hl
      exact (List.sorted_cons.mp hs).1 a hma
    · exact htail m hm

/-- Central lemma about the aggregation pipeline under the stable sort
model: for every payment id, the row retained by
sort-descending-then-dedup-keep-first is the head, in generation order, of
the candidates of that payment id carrying its maximum confidence.  This is
the semantics the spec prescribes and the program realizes only below the
numpy insertion-sort cutoff (see the C1 code-bug result); it is kept as the
specification of the intended tie-break.  Positivity of confidences rules
out the empty-list default of `maxConf`. -/
theorem find?_dropDup_sortDesc (cs : List Match)
    (hpos : ∀ m ∈ cs, 0 < m.confidence) (pid : Str) :
    (dropDupByPayment (sortDescByConf cs)).find? (pidEq pid) =
      ((cs.filter (pidEq pid)).filter
        (confEq (maxConf (cs.filter (pidEq pid))))).head? := by
  rw [dropDupByPayment, find?_dropDupAux pid _ [] (by simp),
    find?_eq_head?_filter]
  have h2 : (sortDescByConf cs).filter (pidEq pid) =
      ((List.insertionSort confLe cs.reverse).filter (pidEq pid)).reverse := by
    rw [sortDescByConf, List.filter_reverse]
  rw [h2, List.head?_reverse]
  have hperm : ((List.insertionSort confLe cs.reverse).filter (pidEq pid)).Perm
      (cs.filter (pidEq pid)) := by
    have h3 := (List.perm_insertionSort confLe cs.reverse).filter (pidEq pid)
    rw [List.filter_reverse] at h3
    exact h3.trans (List.reverse_perm _)
  cases hL : ((List.insertionSort confLe cs.reverse).filter (pidEq pid)).getLast? with
  | none =>
    have hnil : (List.insertionSort confLe cs.reverse).filter (pidEq pid) = [] :=
      List.getLast?_eq_none_iff.mp hL
    have hnil2 : cs.filter (pidEq pid) = [] := ((hnil ▸ hperm).nil_eq).symm
    rw [hnil2]
    simp
  | some L =>
    have hLfl : L ∈ (List.insertionSort confLe cs.reverse).filter (pidEq pid) :=
      mem_of_getLast?_eq hL
    have hflSorted : List.Sorted confLe
        ((List.insertionSort confLe cs.reverse).filter (pidEq pid)) :=
      List.Pairwise.sublist (List.filter_sublist _)
        (List.sorted_insertionSort confLe cs.reverse)
    have hub := sorted_le_getLast hflSorted hL
    have hLcs : L ∈ cs := (List.filter_sublist cs).subset (hperm.mem_iff.mp hLfl)
    have hmax : L.confidence = maxConf (cs.filter (pidEq pid)) := by
      have hmaxle : maxConf ((List.insertionSort confLe cs.reverse).filter (pidEq pid))
          ≤ L.confidence := maxConf_le (le_of_lt (hpos L hLcs)) hub
      have hlemax := le_maxConf hLfl
      exact (le_antisymm hlemax hmaxle).trans (maxConf_perm hperm)
    have hstep := getLast?_filter_of_getLast?
      (confEq (maxConf (cs.filter (pidEq pid))))
      ((List.insertionSort confLe cs.reverse).filter (pidEq pid)) L hL
      (by simp [confEq, ← hmax])
    rw [← hL, ← hstep]
    have hcomm : ((List.insertionSort confLe cs.reverse).filter (pidEq pid)).filter
        (confEq (maxConf (cs.filter (pidEq pid)))) =
        ((cs.filter (pidEq pid)).filter
          (confEq (maxConf (cs.filter (pidEq pid))))).reverse := by
      calc ((List.insertionSort confLe cs.reverse).filter (pidEq pid)).filter
            (confEq (maxConf (cs.filter (pidEq pid))))
          = (List.insertionSort confLe cs.reverse).filter
              (fun a => confEq (maxConf (cs.filter (pidEq pid))) a && pidEq pid a) :=
            List.filter_filter _ _
        _ = (List.insertionSort confLe cs.reverse).filter
              (fun a => pidEq pid a && confEq (maxConf (cs.filter (pidEq pid))) a) :=
            List.filter_congr (fun x _ => Bool.and_comm _ _)
        _ = ((List.insertionSort confLe cs.reverse).filter
              (confEq (maxConf (cs.filter (pidEq pid))))).filter (pidEq pid) :=
            (List.filter_filter _ _).symm
        _ = ((cs.reverse).filter
              (confEq (maxConf (cs.filter (pidEq pid))))).filter (pidEq pid) := by
            rw [filter_confEq_insertionSort]
        _ = ((cs.filter (confEq (maxConf (cs.filter (pidEq pid))))).reverse).filter
              (pidEq pid) := by rw [List.filter_reverse]
        _ = ((cs.filter (confEq (maxConf (cs.filter (pidEq pid))))).filter
              (pidEq pid)).reverse := by rw [List.filter_reverse]
        _ = (cs.filter (fun a => pidEq pid a &&
              confEq (maxConf (cs.filter (pidEq pid))) a)).reverse := by
            rw [List.filter_filter]
        _ = (cs.filter (fun a => confEq (maxConf (cs.filter (pidEq pid))) a &&
              pidEq pid a)).reverse := by
            rw [List.filter_congr (fun x _ => Bool.and_comm _ _)]
        _ = ((cs.filter (pidEq pid)).filter
              (confEq (maxConf (cs.filter (pidEq pid))))).reverse := by
            rw [List.filter_filter]
    rw [hcomm, List.getLast?_reverse]

/-! ## Shape of the candidates -/

theorem mem_scanPairs {f : Payment → Invoice → Option Match}
    {invoices : List Invoice} {payments : List Payment} {m : Match} :
    m ∈ scanPairs f invoices payments ↔
      ∃ pay ∈ payments, ∃ inv ∈ invoices, f pay inv = some m := by
  simp [scanPairs, List.mem_flatMap, List.mem_filterMap]

theorem directPair_shape {pay : Payment} {inv : Invoice} {m : Match}
    (h : directPair pay inv = some m) :
    m = ⟨pay.payment_id, inv.invoice_id, 1, rDirect⟩ := by
  unfold directPair at h
  split at h
  · injection h with h
    exact h.symm
  · cases h

theorem amountDatePair_shape {pay : Payment} {inv : Invoice} {m : Match}
    (h : amountDatePair pay inv = some m) :
    m = ⟨pay.payment_id, inv.invoice_id, 4 / 5, rAmountDate⟩ := by
  unfold amountDatePair at h
  split at h
  · injection h with h
    exact h.symm
  · cases h

theorem namePair_shape {pay : Payment} {inv : Invoice} {m : Match}
    (h : namePair pay inv = some m) :
    m = ⟨pay.payment_id, inv.invoice_id, 7 / 10, rNameExact⟩ ∨
      m = ⟨pay.payment_id, inv.invoice_id, 1 / 2, rPartialPayment⟩ ∨
      m = ⟨pay.payment_id, inv.invoice_id, 2 / 5, rOver⟩ := by
  unfold namePair at h
  by_cases h1 : baseline_normalize_name pay.payer_name = baseline_normalize_name inv.customer_name
  case neg =>
    rw [if_neg h1] at h
    cases h
  rw [if_pos h1] at h
  by_cases h2 : absDiffLtNan pay.amount inv.amount (1 / 100) = true
  · rw [if_pos h2] at h
    injection h with h
    exact Or.inl h.symm
  · rw [if_neg h2] at h
    by_cases h3 : ltNan pay.amount inv.amount = true
    · rw [if_pos h3] at h
      injection h with h
      exact Or.inr (Or.inl h.symm)
    · rw [if_neg h3] at h
      by_cases h4 : gtNan pay.amount inv.amount = true
      · rw [if_pos h4] at h
        injection h with h
        exact Or.inr (Or.inr h.symm)
      · rw [if_neg h4] at h
        cases h

theorem mem_candidates_shape {invoices : List Invoice} {payments : List Payment}
    {m : Match} (h : m ∈ candidates invoices payments) :
    (m.confidence, m.rationale) ∈ confRationaleTable := by
  unfold candidates at h
  rcases List.mem_append.mp h with h | h
  case inr =>
    obtain ⟨pay, _, inv, _, hp⟩ := mem_scanPairs.mp h
    rcases namePair_shape hp with rfl | rfl | rfl <;> simp [confRationaleTable]
  rcases List.mem_append.mp h with h | h
  · obtain ⟨pay, _, inv, _, hp⟩ := mem_scanPairs.mp h
    rw [directPair_shape hp]
    simp [confRationaleTable]
  · obtain ⟨pay, _, inv, _, hp⟩ := mem_scanPairs.mp h
    rw [amountDatePair_shape hp]
    simp [confRationaleTable]

theorem candidates_conf_pos {invoices : List Invoice} {payments : List Payment}
    {m : Match} (h : m ∈ candidates invoices payments) : 0 < m.confidence := by
  have hs := mem_candidates_shape h
  simp only [confRationaleTable, List.mem_cons, List.mem_singleton,
    Prod.mk.injEq, List.not_mem_nil, or_false] at hs
  rcases hs with ⟨h1, _⟩ | ⟨h1, _⟩ | ⟨h1, _⟩ | ⟨h1, _⟩ | ⟨h1, _⟩ <;>
    rw [h1] <;> norm_num

/-! ## Idempotence of the name normalizer: character-level lemmas -/

theorem pyToLower_image_not_upper (c : Char) :
    ∀ u ∈ (['A', 'B', 'C', 'D', 'E', 'F', 'G', 'H', 'I', 'J', 'K', 'L', 'M',
      'N', 'O', 'P', 'Q', 'R', 'S', 'T', 'U', 'V', 'W', 'X', 'Y', 'Z'] :
      List Char), pyToLower c ≠ u := by
  unfold pyToLower
  split
  all_goals first
    | decide
    | (intro u hu
       fin_cases hu <;> assumption)

theorem pyToLower_eq_self {d : Char}
    (h : ∀ u ∈ (['A', 'B', 'C', 'D', 'E', 'F', 'G', 'H', 'I', 'J', 'K', 'L',
      'M', 'N', 'O', 'P', 'Q', 'R', 'S', 'T', 'U', 'V', 'W', 'X', 'Y', 'Z'] :
      List Char), d ≠ u) : pyToLower d = d := by
  unfold pyToLower
  split
  all_goals first
    | rfl
    | (refine absurd rfl (h _ ?_)
       decide)

theorem pyToLower_idem (c : Char) : pyToLower (pyToLower c) = pyToLower c :=
  pyToLower_eq_self (pyToLower_image_not_upper c)

theorem pyToLower_not_upper (c : Char) :
    pyToLower c ≠ 'P' ∧ pyToLower c ≠ 'L' := by
  unfold pyToLower
  split
  all_goals first | decide | (constructor <;> assumption)

theorem pySpace_pyToLower (c : Char) : pySpace (pyToLower c) = pySpace c := by
  unfold pyToLower
  split
  all_goals first | decide | rfl

/-! ## Idempotence of the name normalizer: strip lemmas -/

theorem head?_dropWhile_not (p : Char → Bool) :
    ∀ (l : Str) (c : Char), (l.dropWhile p).head? = some c → p c = false
  | [], c, h => by simp at h
  | a :: l, c, h => by
    rw [List.dropWhile_cons] at h
    split at h
    · exact head?_dropWhile_not p l c h
    case isFalse hpa =>
      simp only [List.head?_cons, Option.some.injEq] at h
      subst h
      exact Bool.not_eq_true _ ▸ (by simpa using hpa)

theorem getLast?_cons_of_ne_nil {α : Type} {c : α} {t : List α} (h : t ≠ []) :
    (c :: t).getLast? = t.getLast? := by
  cases t with
  | nil => exact absurd rfl h
  | cons y u => exact List.getLast?_cons_cons

theorem getLast?_dropWhile_of_ne_nil (p : Char → Bool) :
    ∀ l : Str, l.dropWhile p ≠ [] → (l.dropWhile p).getLast? = l.getLast?
  | [], h => absurd rfl h
  | a :: l, h => by
    rw [List.dropWhile_cons] at h ⊢
    split at h
    case isTrue hpa =>
      rw [if_pos hpa]
      have hl : l ≠ [] := by
        intro hnil
        rw [hnil] at h
        exact h rfl
      rw [getLast?_dropWhile_of_ne_nil p l h, getLast?_cons_of_ne_nil hl]
    case isFalse hpa => rw [if_neg hpa]

theorem dropWhile_eq_self_of_head? {p : Char → Bool} :
    ∀ {l : Str}, (∀ c, l.head? = some c → p c = false) → l.dropWhile p = l
  | [], _ => rfl
  | a :: l, h => by
    rw [List.dropWhile_cons, if_neg]
    simp [h a rfl]

theorem pyStrip_noEdge (s : Str) : noEdgeSpace (pyStrip s) := by
  constructor
  · intro c hc
    rw [pyStrip, List.head?_reverse] at hc
    by_cases hnil : ((s.dropWhile pySpace).reverse.dropWhile pySpace) = []
    · rw [hnil] at hc
      simp at hc
    · rw [getLast?_dropWhile_of_ne_nil pySpace _ hnil, List.getLast?_reverse] at hc
      exact head?_dropWhile_not pySpace s c hc
  · intro c hc
    rw [pyStrip, List.getLast?_reverse] at hc
    exact head?_dropWhile_not pySpace _ c hc

theorem pyStrip_eq_self {s : Str} (h : noEdgeSpace s) : pyStrip s = s := by
  rw [pyStrip, dropWhile_eq_self_of_head? h.1, dropWhile_eq_self_of_head?
    (fun c hc => h.2 c (by rwa [List.head?_reverse] at hc)), List.reverse_reverse]

/-! ## Idempotence of the name normalizer: replace lemmas -/

theorem pyReplaceAux_ne_nil {pat rep : Str} (hrep : rep ≠ []) :
    ∀ (fuel : Nat) (s : Str), s ≠ [] → pyReplaceAux pat rep fuel s ≠ []
  | _, [], h => absurd rfl h
  | 0, c :: rest, _ => by simp [pyReplaceAux]
  | fuel + 1, c :: rest, _ => by
    rw [pyReplaceAux]
    split
    · simp [hrep]
    · simp

theorem head?_pyReplaceAux {pat rep : Str} (hrep : rep ≠ [])
    (fuel : Nat) (s : Str) (c₀ : Char)
    (h : (pyReplaceAux pat rep fuel s).head? = some c₀) :
    s.head? = some c₀ ∨ rep.head? = some c₀ := by
  match fuel, s with
  | _, [] => simp [pyReplaceAux] at h
  | 0, c :: rest => exact Or.inl h
  | fuel + 1, c :: rest =>
    rw [pyReplaceAux] at h
    split at h
    · cases rep with
      | nil => exact absurd rfl hrep
      | cons r rt =>
        rw [List.cons_append, List.head?_cons] at h
        exact Or.inr h
    · exact Or.inl h

theorem getLast?_pyReplaceAux {pat rep : Str} (hrep : rep ≠ []) :
    ∀ (fuel : Nat) (s : Str) (c₀ : Char),
      (pyReplaceAux pat rep fuel s).getLast? = some c₀ →
        s.getLast? = some c₀ ∨ rep.getLast? = some c₀
  | _, [], c₀, h => by simp [pyReplaceAux] at h
  | 0, c :: rest, c₀, h => by
    simp only [pyReplaceAux] at h
    exact Or.inl h
  | fuel + 1, c :: rest, c₀, h => by
    rw [pyReplaceAux] at h
    split at h
    · rw [List.getLast?_append] at h
      cases hw : (pyReplaceAux pat rep fuel ((c :: rest).drop pat.length)).getLast? with
      | none =>
        rw [hw] at h
        simp only [Option.or] at h
        exact Or.inr h
      | some d =>
        rw [hw] at h
        simp only [Option.or, Option.some.injEq] at h
        subst h
        rcases getLast?_pyReplaceAux hrep fuel _ d hw with hdrop | hr
        · rw [List.getLast?_drop] at hdrop
          split at hdrop
          · cases hdrop
          · exact Or.inl hdrop
        · exact Or.inr hr
    · by_cases hrest : rest = []
      · subst hrest
        simp only [pyReplaceAux] at h
        exact Or.inl h
      · have hw : pyReplaceAux pat rep fuel rest ≠ [] :=
          pyReplaceAux_ne_nil hrep fuel rest hrest
        rw [getLast?_cons_of_ne_nil hw] at h
        rcases getLast?_pyReplaceAux hrep fuel rest c₀ h with hc | hr
        · rw [getLast?_cons_of_ne_nil hrest]
          exact Or.inl hc
        · exact Or.inr hr

theorem strStartsWith_subset :
    ∀ {pat s : Str}, strStartsWith pat s = true → ∀ c ∈ pat, c ∈ s
  | [], _, _, c, hc => absurd hc (List.not_mem_nil c)
  | a :: p, [], h, _, _ => by simp [strStartsWith] at h
  | a :: p, d :: t, h, c, hc => by
    simp only [strStartsWith, Bool.and_eq_true, beq_iff_eq] at h
    rcases List.mem_cons.mp hc with rfl | hc
    · rw [h.1]
      exact List.mem_cons_self d t
    · exact List.mem_cons_of_mem d (strStartsWith_subset h.2 c hc)

theorem pyReplaceAux_no_occ {pat rep : Str} {ch : Char} (hch : ch ∈ pat) :
    ∀ (fuel : Nat) (s : Str), ch ∉ s → pyReplaceAux pat rep fuel s = s
  | _, [], _ => by simp [pyReplaceAux]
  | 0, c :: rest, _ => by simp [pyReplaceAux]
  | fuel + 1, c :: rest, hns => by
    rw [pyReplaceAux]
    split
    case isTrue hcond =>
      exact absurd (strStartsWith_subset hcond.2 ch hch) hns
    case isFalse =>
      rw [pyReplaceAux_no_occ hch fuel rest
        (fun hc => hns (List.mem_cons_of_mem c hc))]

theorem pyReplace_no_occ {pat rep s : Str} {ch : Char}
    (hch : ch ∈ pat) (hs : ch ∉ s) : pyReplace pat rep s = s :=
  pyReplaceAux_no_occ hch s.length s hs

theorem pyReplace_noEdge {pat rep : Str} (hrep : rep ≠ [])
    (hh : ∀ c, rep.head? = some c → pySpace c = false)
    (hl : ∀ c, rep.getLast? = some c → pySpace c = false)
    {s : Str} (h : noEdgeSpace s) : noEdgeSpace (pyReplace pat rep s) := by
  constructor
  · intro c hc
    rcases head?_pyReplaceAux hrep s.length s c hc with hcs | hcr
    · exact h.1 c hcs
    · exact hh c hcr
  · intro c hc
    rcases getLast?_pyReplaceAux hrep s.length s c hc with hcs | hcr
    · exact h.2 c hcs
    · exact hl c hcr

/-! ## Idempotence of the name normalizer: lowercase lemmas -/

theorem pyLower_noEdge {s : Str} (h : noEdgeSpace s) :
    noEdgeSpace (pyLower s) := by
  constructor
  · intro c hc
    rw [pyLower, List.head?_map] at hc
    cases hs : s.head? with
    | none => rw [hs] at hc; cases hc
    | some d =>
      rw [hs] at hc
      simp only [Option.map_some', Option.some.injEq] at hc
      subst hc
      rw [pySpace_pyToLower]
      exact h.1 d hs
  · intro c hc
    rw [pyLower, List.getLast?_map] at hc
    cases hs : s.getLast? with
    | none => rw [hs] at hc; cases hc
    | some d =>
      rw [hs] at hc
      simp only [Option.map_some', Option.some.injEq] at hc
      subst hc
      rw [pySpace_pyToLower]
      exact h.2 d hs

theorem pyLower_no_PL (s : Str) : 'P' ∉ pyLower s ∧ 'L' ∉ pyLower s := by
  constructor <;> intro hmem <;> rcases List.mem_map.mp hmem with ⟨c, _, hc⟩
  · exact (pyToLower_not_upper c).1 hc
  · exact (pyToLower_not_upper c).2 hc

theorem pyLower_idem (s : Str) : pyLower (pyLower s) = pyLower s := by
  rw [pyLower, pyLower, List.map_map]
  exact List.map_congr_left fun c _ => pyToLower_idem c

/-! ## Idempotence of the name normalizer -/

/-- C8: name normalization is idempotent — applying
`baseline_normalize_name` to an already-normalized name returns it
unchanged (stated over every possible cell value, strings and nulls). -/
theorem baseline_normalize_name_idem (x : Option Str) :
    baseline_normalize_name (some (baseline_normalize_name x)) =
      baseline_normalize_name x := by
  cases x with
  | none => rfl
  | some name =>
    have hEdge : noEdgeSpace (baseline_normalize_name (some name)) := by
      refine pyLower_noEdge ?_
      refine pyReplace_noEdge (by decide)
        (fun c hc => by rw [show (strL "Ltd").head? = some 'L' from rfl] at hc
                        injection hc with hc; rw [← hc]; decide)
        (fun c hc => by rw [show (strL "Ltd").getLast? = some 'd' from rfl] at hc
                        injection hc with hc; rw [← hc]; decide) ?_
      refine pyReplace_noEdge (by decide)
        (fun c hc => by rw [show (strL "Ltd").head? = some 'L' from rfl] at hc
                        injection hc with hc; rw [← hc]; decide)
        (fun c hc => by rw [show (strL "Ltd").getLast? = some 'd' from rfl] at hc
                        injection hc with hc; rw [← hc]; decide) ?_
      refine pyReplace_noEdge (by decide)
        (fun c hc => by rw [show (strL "Pvt Ltd").head? = some 'P' from rfl] at hc
                        injection hc with hc; rw [← hc]; decide)
        (fun c hc => by rw [show (strL "Pvt Ltd").getLast? = some 'd' from rfl] at hc
                        injection hc with hc; rw [← hc]; decide) ?_
      refine pyReplace_noEdge (by decide)
        (fun c hc => by rw [show (strL "Pvt Ltd").head? = some 'P' from rfl] at hc
                        injection hc with hc; rw [← hc]; decide)
        (fun c hc => by rw [show (strL "Pvt Ltd").getLast? = some 'd' from rfl] at hc
                        injection hc with hc; rw [← hc]; decide) ?_
      exact pyStrip_noEdge name
    have hP : 'P' ∉ baseline_normalize_name (some name) := (pyLower_no_PL _).1
    have hL : 'L' ∉ baseline_normalize_name (some name) := (pyLower_no_PL _).2
    show pyLower
      (pyReplace (strL "Ltd.") (strL "Ltd")
        (pyReplace (strL "Limited") (strL "Ltd")
          (pyReplace (strL "Pvt. Ltd") (strL "Pvt Ltd")
            (pyReplace (strL "Private Limited") (strL "Pvt Ltd")
              (pyStrip (baseline_normalize_name (some name))))))) =
      baseline_normalize_name (some name)
    rw [pyStrip_eq_self hEdge,
      pyReplace_no_occ (show 'P' ∈ strL "Private Limited" by decide) hP,
      pyReplace_no_occ (show 'P' ∈ strL "Pvt. Ltd" by decide) hP,
      pyReplace_no_occ (show 'L' ∈ strL "Limited" by decide) hL,
      pyReplace_no_occ (show 'L' ∈ strL "Ltd." by decide) hL]
    exact pyLower_idem _

/-! ## Lemmas about the remainder loop -/

theorem remainderRow_payment_id {invoices : List Invoice} {payments : List Payment}
    {row : Match} {r : RemainderRecord}
    (h : remainderRow invoices payments row = some r) :
    r.payment_id = row.payment_id := by
  unfold remainderRow at h
  split at h
  case _ pay inv hpay hinv =>
    have hp : pay.payment_id = row.payment_id := by
      have := List.find?_some hpay
      exact of_decide_eq_true this
    split at h
    · injection h with h
      rw [← h]
      exact hp
    · cases h
  case _ => cases h

theorem filter_remainder_not_mem {invoices : List Invoice} {payments : List Payment}
    {p : Str} :
    ∀ {ms : List Match}, (∀ row ∈ ms, row.payment_id ≠ p) →
      (ms.filterMap (remainderRow invoices payments)).filter
        (fun r => decide (r.payment_id = p)) = [] := by
  intro ms hms
  rw [List.filter_eq_nil_iff]
  intro r hr
  obtain ⟨row, hrow, hemit⟩ := List.mem_filterMap.mp hr
  simp only [decide_eq_true_eq]
  rw [remainderRow_payment_id hemit]
  exact hms row hrow

theorem filter_remainder_of_pairwise {invoices : List Invoice}
    {payments : List Payment} :
    ∀ {ms : List Match},
      ms.Pairwise (fun a b => a.payment_id ≠ b.payment_id) →
      ∀ {m : Match}, m ∈ ms →
        (ms.filterMap (remainderRow invoices payments)).filter
            (fun r => decide (r.payment_id = m.payment_id)) =
          match remainderRow invoices payments m with
          | some r => [r]
          | none => []
  | [], _, m, hm => absurd hm (List.not_mem_nil m)
  | x :: t, hpw, m, hm => by
    have hpw1 := (List.pairwise_cons.mp hpw).1
    have hpw2 := (List.pairwise_cons.mp hpw).2
    rcases List.mem_cons.mp hm with rfl | hmt
    · cases hx : remainderRow invoices payments m with
      | some r =>
        rw [List.filterMap_cons_some hx, List.filter_cons,
          if_pos (by simp [remainderRow_payment_id hx]),
          filter_remainder_not_mem (fun row hr => (hpw1 row hr).symm)]
      | none =>
        rw [List.filterMap_cons_none hx,
          filter_remainder_not_mem (fun row hr => (hpw1 row hr).symm)]
    · have hxm : x.payment_id ≠ m.payment_id := hpw1 m hmt
      cases hx : remainderRow invoices payments x with
      | some r =>
        rw [List.filterMap_cons_some hx, List.filter_cons,
          if_neg (by simp [remainderRow_payment_id hx, hxm]),
          filter_remainder_of_pairwise hpw2 hmt]
      | none =>
        rw [List.filterMap_cons_none hx,
          filter_remainder_of_pairwise hpw2 hmt]

/-! ## Behaviour when no candidates are generated -/

theorem match_records_of_no_candidates {invoices : List Invoice}
    {payments : List Payment} (h : candidates invoices payments = []) :
    match_records invoices payments = (⟨[], payments, invoices⟩, []) := by
  have hfm : finalMatches invoices payments = [] := by
    rw [finalMatches, h]
    rfl
  simp [match_records, hfm, unmatchedPayments, unmatchedInvoices,
    remainingRecords]

/-! ## Claim theorems -/

/-- C2: no two final matches share a payment id, the final set has exactly
one row per payment id that occurs among the candidates, and its size is at
most the number of distinct payment ids with at least one candidate. -/
theorem C2_dedup_invariant (invoices : List Invoice) (payments : List Payment) :
    ((finalMatches invoices payments).map Match.payment_id).Nodup
    ∧ (∀ pid, pid ∈ (finalMatches invoices payments).map Match.payment_id ↔
        pid ∈ (candidates invoices payments).map Match.payment_id)
    ∧ (finalMatches invoices payments).length ≤
        ((candidates invoices payments).map Match.payment_id).dedup.length := by
  have hnodup : ((finalMatches invoices payments).map Match.payment_id).Nodup :=
    List.Pairwise.map Match.payment_id (fun _ _ h => h)
      (dropDupAux_pairwise (sortDescByConf (candidates invoices payments)) [])
  have hiff : ∀ pid,
      pid ∈ (finalMatches invoices payments).map Match.payment_id ↔
        pid ∈ (candidates invoices payments).map Match.payment_id := by
    intro pid
    rw [finalMatches, dropDupByPayment,
      mem_pid_dropDupAux pid _ [] (List.not_mem_nil pid)]
    exact ((sortDescByConf_perm (candidates invoices payments)).map
      Match.payment_id).mem_iff
  refine ⟨hnodup, hiff, ?_⟩
  have hsub : (finalMatches invoices payments).map Match.payment_id ⊆
      ((candidates invoices payments).map Match.payment_id).dedup := by
    intro a ha
    exact List.mem_dedup.mpr ((hiff a).mp ha)
  have := (hnodup.subperm hsub).length_le
  rwa [List.length_map] at this

/-- C3 counterexample: a final match whose payment amount is 1/128 below the
invoice amount — strictly inside the 0.01 tolerance band used for equality
elsewhere — still produces a remainder record, because the remainder test
`pay.amount < inv.amount` uses no tolerance. -/
theorem C3_ctrex_remainder_inside_band :
    remainingRecords [invTol] [payTol] (finalMatches [invTol] [payTol]) =
      [⟨strL "I-7", some (strL "Acme"), some 100, strL "P-7",
        some (100 - 1 / 128), some (1 / 128), some (strL "USD")⟩]
    ∧ absDiffLtNan payTol.amount invTol.amount (1 / 100) = true := by
  decide

/-- C3 amended: for every final match, a remainder record for its payment id
exists iff the looked-up payment amount is strictly below the looked-up
invoice amount under the NaN-rejecting comparison (no tolerance band), and
the record then carries exactly `remaining_amount = invoice − payment`. -/
theorem C3_remainder_iff_strict_lt (invoices : List Invoice)
    (payments : List Payment) (m : Match) (pay : Payment) (inv : Invoice)
    (hm : m ∈ finalMatches invoices payments)
    (hpay : payments.find? (fun p => decide (p.payment_id = m.payment_id)) = some pay)
    (hinv : invoices.find? (fun i => decide (i.invoice_id = m.invoice_id)) = some inv) :
    (remainingRecords invoices payments (finalMatches invoices payments)).filter
        (fun r => decide (r.payment_id = m.payment_id)) =
      (if ltNan pay.amount inv.amount then
        [⟨inv.invoice_id, inv.customer_name, inv.amount, pay.payment_id,
          pay.amount, subNan inv.amount pay.amount, inv.currency⟩]
      else []) := by
  have hpw : (finalMatches invoices payments).Pairwise
      (fun a b => a.payment_id ≠ b.payment_id) := dropDupAux_pairwise _ _
  rw [remainingRecords, filter_remainder_of_pairwise hpw hm]
  unfold remainderRow
  simp only [hpay, hinv]
  by_cases hlt : ltNan pay.amount inv.amount = true
  · rw [if_pos hlt, if_pos hlt]
  · rw [if_neg hlt, if_neg hlt]

/-- C3 amended, witness at the concrete within-tolerance input. -/
theorem C3_remainder_iff_strict_lt_witness :
    (remainingRecords [invTol] [payTol] (finalMatches [invTol] [payTol])).filter
        (fun r => decide (r.payment_id =
          (⟨strL "P-7", strL "I-7", 7 / 10, rNameExact⟩ : Match).payment_id)) =
      (if ltNan payTol.amount invTol.amount then
        [⟨invTol.invoice_id, invTol.customer_name, invTol.amount,
          payTol.payment_id, payTol.amount,
          subNan invTol.amount payTol.amount, invTol.currency⟩]
      else []) :=
  C3_remainder_iff_strict_lt [invTol] [payTol]
    ⟨strL "P-7", strL "I-7", 7 / 10, rNameExact⟩ payTol invTol
    (by decide) (by decide) (by decide)

/-- C4 counterexample: on the scenario B input the core itself performs a
storage write — it persists the remainder records to
`out/remaining_payments.csv` instead of returning them. -/
theorem C4_ctrex_core_writes_storage :
    (match_records [invB] [payB]).2 =
      [⟨strL "out/remaining_payments.csv",
        [⟨strL "INV-2", some (strL "Acme Private Limited"), some 50,
          strL "PAY-2", some 30, some 20, some (strL "USD")⟩]⟩]
    ∧ (match_records [invB] [payB]).2 ≠ [] := by
  decide

/-- C4 amended: `match_records` returns three collections — final matches,
unmatched payments, unmatched invoices — and the remainder records are not
among them: the core persists them itself, writing
`out/remaining_payments.csv` exactly when the remainder set is nonempty. -/
theorem C4_three_collections_and_write (invoices : List Invoice)
    (payments : List Payment) :
    (match_records invoices payments).1 =
      ⟨finalMatches invoices payments,
        unmatchedPayments payments (finalMatches invoices payments),
        unmatchedInvoices invoices (finalMatches invoices payments)⟩
    ∧ ((match_records invoices payments).2 = [] ↔
        remainingRecords invoices payments (finalMatches invoices payments) = [])
    ∧ ((match_records invoices payments).2 = [] ∨
        (match_records invoices payments).2 =
          [⟨strL "out/remaining_payments.csv",
            remainingRecords invoices payments (finalMatches invoices payments)⟩]) := by
  by_cases hr : remainingRecords invoices payments (finalMatches invoices payments) = []
  · refine ⟨rfl, ?_, ?_⟩
    · simp [match_records, hr]
    · left
      simp [match_records, hr]
  · refine ⟨rfl, ?_, ?_⟩
    · simp [match_records, hr]
    · right
      simp [match_records, hr]

/-- C5 counterexample: a payment whose memo and reference cells are both
missing gets the search text "nan nan" (Python renders the NaN cells as the
text "nan"), so an invoice with id "nan" yields a direct-reference candidate
even though "nan" does not occur in the single-space text the claim
prescribes for absent values. -/
theorem C5_ctrex_nan_search_text :
    candidates [invNan] [payNan] = [⟨strL "PAY-9", strL "nan", 1, rDirect⟩]
    ∧ searchText payNan = strL "nan nan"
    ∧ strContains (strL " ") (strL "nan") = false := by
  decide

/-- C5 amended: the direct-reference scan emits exactly one candidate, with
confidence 1.0, for every payment/invoice pair whose invoice id occurs as a
substring of the search text built from the memo and reference cells joined
by a single space, where a missing (NaN) cell renders as the literal text
"nan" rather than the empty string. -/
theorem C5_direct_reference_characterization (invoices : List Invoice)
    (payments : List Payment) (m : Match) :
    m ∈ scanPairs directPair invoices payments ↔
      ∃ pay ∈ payments, ∃ inv ∈ invoices,
        strContains (searchText pay) inv.invoice_id = true ∧
        m = ⟨pay.payment_id, inv.invoice_id, 1, rDirect⟩ := by
  rw [mem_scanPairs]
  have hiff : ∀ (pay : Payment) (inv : Invoice),
      directPair pay inv = some m ↔
        (strContains (searchText pay) inv.invoice_id = true ∧
          m = ⟨pay.payment_id, inv.invoice_id, 1, rDirect⟩) := by
    intro pay inv
    unfold directPair
    split
    case isTrue h =>
      simp only [h, true_and, Option.some.injEq]
      exact ⟨fun hh => hh.symm, fun hh => hh.symm⟩
    case isFalse h =>
      simp only [Bool.not_eq_true] at h
      simp [h]
  constructor
  · rintro ⟨pay, hp, inv, hi, hd⟩
    exact ⟨pay, hp, inv, hi, (hiff pay inv).mp hd⟩
  · rintro ⟨pay, hp, inv, hi, hd⟩
    exact ⟨pay, hp, inv, hi, (hiff pay inv).mpr hd⟩

/-- C6 counterexample: the single candidate of this input carries confidence
1.0 but its rationale is the sentence "Direct invoice_id found in
memo/reference", not the label "direct_reference" stated by the claim. -/
theorem C6_ctrex_rationale_text :
    candidates [invTie1] [payTie] = [⟨strL "P-5", strL "I1", 1, rDirect⟩]
    ∧ rDirect ≠ strL "direct_reference" := by
  decide

/-- C6 amended: every candidate emitted by any matcher carries one of the
five fixed confidence/rationale pairs of its branch — 1.0 with the direct
reference sentence, 0.8 with the amount/near-date sentence, 0.7 with the
name/amount-match sentence, 0.5 with the partial-payment sentence, and 0.4
with the overpayment sentence — and no other confidence or rationale. -/
theorem C6_confidence_rationale_table (invoices : List Invoice)
    (payments : List Payment) (m : Match)
    (h : m ∈ candidates invoices payments) :
    (m.confidence, m.rationale) ∈ confRationaleTable :=
  mem_candidates_shape h

/-- C6 amended, witness on a concrete candidate. -/
theorem C6_confidence_rationale_table_witness :
    ((⟨strL "P-5", strL "I1", 1, rDirect⟩ : Match).confidence,
      (⟨strL "P-5", strL "I1", 1, rDirect⟩ : Match).rationale) ∈
      confRationaleTable :=
  C6_confidence_rationale_table [invTie1] [payTie]
    ⟨strL "P-5", strL "I1", 1, rDirect⟩ (by decide)

/-- C7: a null (unparseable) amount or date makes every comparison involving
it false, so the amount/date matcher emits nothing for a pair with a null
amount or date, and the name/amount matcher emits nothing for a pair with a
null amount; the embedding is total, mirroring that no exception escapes. -/
theorem C7_null_comparisons_never_match (pay : Payment) (inv : Invoice) :
    ((pay.amount = none ∨ inv.amount = none ∨ pay.date = none ∨ inv.date = none) →
      amountDatePair pay inv = none)
    ∧ ((pay.amount = none ∨ inv.amount = none) → namePair pay inv = none) := by
  constructor
  · intro h
    unfold amountDatePair
    split
    case isTrue hc =>
      exfalso
      obtain ⟨hc1, hc2, hc3⟩ := hc
      rcases h with h | h | h | h
      · rw [h] at hc3
        cases inv.amount <;> simp [absDiffLtNan] at hc3
      · rw [h] at hc3
        simp [absDiffLtNan] at hc3
      · rw [h] at hc2
        simp [absDaysLeNan] at hc2
      · rw [h] at hc2
        cases pay.date <;> simp [absDaysLeNan] at hc2
    case isFalse => rfl
  · intro h
    unfold namePair
    split
    case isFalse => rfl
    case isTrue =>
      rcases h with h | h
      · rw [h]
        simp [absDiffLtNan, ltNan, gtNan]
      · rw [h]
        cases pay.amount <;> simp [absDiffLtNan, ltNan, gtNan]

/-- C7 witness at a concrete all-null pair. -/
theorem C7_null_comparisons_never_match_witness :
    amountDatePair payNan invNan = none ∧ namePair payNan invNan = none :=
  ⟨(C7_null_comparisons_never_match payNan invNan).1 (Or.inl rfl),
    (C7_null_comparisons_never_match payNan invNan).2 (Or.inl rfl)⟩

/-- C9 counterexample: on the scenario B input the single final match has
confidence 0.5 but its rationale is the sentence "Partial payment - lower
amount", not the label "name_partial_payment" stated by the claim. -/
theorem C9_ctrex_rationale_text :
    (match_records [invB] [payB]).1.matches_df =
      [⟨strL "PAY-2", strL "INV-2", 1 / 2, rPartialPayment⟩]
    ∧ rPartialPayment ≠ strL "name_partial_payment" := by
  decide

/-- C9 amended: on scenario B only the name/amount matcher fires (the two
names normalize to the same string), the single final match has confidence
0.5 with the partial-payment rationale sentence, and one remainder record
with remaining amount 20.00 is produced (and written to storage). -/
theorem C9_scenario_b :
    candidates [invB] [payB] =
      [⟨strL "PAY-2", strL "INV-2", 1 / 2, rPartialPayment⟩]
    ∧ baseline_normalize_name payB.payer_name =
        baseline_normalize_name invB.customer_name
    ∧ match_records [invB] [payB] =
      (⟨[⟨strL "PAY-2", strL "INV-2", 1 / 2, rPartialPayment⟩], [], []⟩,
        [⟨strL "out/remaining_payments.csv",
          [⟨strL "INV-2", some (strL "Acme Private Limited"), some 50,
            strL "PAY-2", some 30, some 20, some (strL "USD")⟩]⟩]) := by
  decide

/-- C10: when the matchers generate no candidate at all, `match_records`
returns an empty final match set, the whole payment input as unmatched
payments, the whole invoice input as unmatched invoices, and performs no
remainder write. -/
theorem C10_no_candidates (invoices : List Invoice) (payments : List Payment)
    (h : candidates invoices payments = []) :
    match_records invoices payments = (⟨[], payments, invoices⟩, []) :=
  match_records_of_no_candidates h

/-- C10 witness on the empty inputs. -/
theorem C10_no_candidates_witness :
    candidates [] [] = [] ∧ match_records [] [] = (⟨[], [], []⟩, []) :=
  ⟨rfl, C10_no_candidates [] [] rfl⟩

end InvoiceMatcher
